import Mathlib

/-!
Verification of the fri-binius polynomial commitment scheme.

The Rust sources are shallowly embedded: vectors become lists, parallel
map-reduce loops become maps and Finset sums, and the external black-box
capabilities (the binary-tower field arithmetic, the Keccak-256 sponge, the
additive NTT's subspace evaluations, canonical field serialization) are taken
as explicit function parameters, exactly matching the scope the specification
marks as external.  Field-element algebra is stated over an arbitrary
commutative ring, with characteristic 2 assumed where the source relies on it.
-/

namespace FriBinius

/-- Base-2 log of the tensor-batching block size (utils/mod.rs: TAU = 7). -/
def TAU : Nat := 7

/-- Reed-Solomon rate (utils/code.rs: RATE = 4). -/
def RATE : Nat := 4

/-- Base-2 log of the rate (utils/code.rs: LOG_RATE = 2). -/
def LOG_RATE : Nat := 2

/-- Map over adjacent pairs of a list, dropping a trailing unpaired element.
Models the par_chunks_exact(2) iteration pattern of the Rust source. -/
def pairMap {A B : Type} (f : A → A → B) : List A → List B
  | a :: b :: rest => f a b :: pairMap f rest
  | _ => []

/-- Induction principle matching the two-at-a-time recursion of pairMap. -/
theorem pair_induction {A : Type} (P : List A → Prop) (h0 : P []) (h1 : ∀ a, P [a])
    (h2 : ∀ a b l, P l → P (a :: b :: l)) : ∀ l, P l := by
  have key : ∀ n (l : List A), l.length ≤ n → P l := by
    intro n
    induction n with
    | zero =>
      intro l hl
      cases l with
      | nil => exact h0
      | cons a t => simp at hl
    | succ n ih =>
      intro l hl
      cases l with
      | nil => exact h0
      | cons a t =>
        cases t with
        | nil => exact h1 a
        | cons b rest =>
          refine h2 a b rest (ih rest ?_)
          simp only [List.length_cons] at hl
          omega
  intro l
  exact key l.length l le_rfl

theorem pairMap_length {A B : Type} (f : A → A → B) :
    ∀ l : List A, (pairMap f l).length = l.length / 2 := by
  refine pair_induction _ (by simp [pairMap]) (fun a => by simp [pairMap]) ?_
  intro a b l ih
  simp only [pairMap, List.length_cons]
  omega

theorem pairMap_getD {A B : Type} (f : A → A → B) (da : A) (db : B) :
    ∀ (l : List A) (i : Nat), i < l.length / 2 →
      (pairMap f l).getD i db = f (l.getD (2 * i) da) (l.getD (2 * i + 1) da) := by
  refine pair_induction _ ?_ ?_ ?_
  · intro i hi
    simp only [List.length_nil] at hi
    omega
  · intro a i hi
    simp only [List.length_cons, List.length_nil] at hi
    omega
  · intro a b l ih i hi
    cases i with
    | zero => rfl
    | succ i =>
      have hi2 : i < l.length / 2 := by
        simp only [List.length_cons] at hi
        omega
      have h1 : 2 * (i + 1) = 2 * i + 1 + 1 := by omega
      have h2 : 2 * (i + 1) + 1 = 2 * i + 1 + 1 + 1 := by omega
      simp only [pairMap, List.getD_cons_succ, h1, h2]
      exact ih i hi2

/-! ## Univariate sum-check oracles (prover.rs) -/

/-- Univariate evaluation (prover.rs, Univariate): Horner over the reversed
coefficient list, so a coefficient list [c0, c1, c2] evaluates as a
polynomial with c0 the constant term. -/
def univariate_evaluate {F : Type} [CommRing F] (coeffs : List F) (r : F) : F :=
  coeffs.reverse.foldl (fun ev val => val + ev * r) 0

/-- The round polynomial's evaluation at 0 (prover.rs, sum_check_round):
the parallel XOR-sum of mle[2i] * eq[2i]. -/
def sc_eval_at_0 {F : Type} [CommRing F] (mle eq : List F) : F :=
  ∑ i ∈ Finset.range (mle.length / 2), mle.getD (2 * i) 0 * eq.getD (2 * i) 0

/-- The round polynomial's evaluation at infinity (prover.rs, sum_check_round):
the parallel XOR-sum of (mle[2i] + mle[2i+1]) * (eq[2i] + eq[2i+1]). -/
def sc_eval_at_inf {F : Type} [CommRing F] (mle eq : List F) : F :=
  ∑ i ∈ Finset.range (mle.length / 2),
    (mle.getD (2 * i) 0 + mle.getD (2 * i + 1) 0) * (eq.getD (2 * i) 0 + eq.getD (2 * i + 1) 0)

/-- sum_check_round (prover.rs): emits the three-coefficient oracle
[eval_at_0, eval_at_0 + eval_at_1 + eval_at_inf, eval_at_inf] with
eval_at_1 = sum_check_claim - eval_at_0. -/
def sum_check_round {F : Type} [CommRing F] (mle eq : List F) (sum_check_claim : F) : List F :=
  [sc_eval_at_0 mle eq,
   sc_eval_at_0 mle eq + (sum_check_claim - sc_eval_at_0 mle eq) + sc_eval_at_inf mle eq,
   sc_eval_at_inf mle eq]

theorem univariate_evaluate_three {F : Type} [CommRing F] (r c0 c1 c2 : F) :
    univariate_evaluate [c0, c1, c2] r = c0 + c1 * r + c2 * r ^ 2 := by
  simp only [univariate_evaluate, List.reverse_cons, List.reverse_nil, List.nil_append,
    List.cons_append, List.foldl_cons, List.foldl_nil]
  ring

/-- Claim C4: the oracle emitted by sum_check_round has the three coefficients
[eval_at_0, eval_at_0 + eval_at_1 + eval_at_inf, eval_at_inf] with
eval_at_0 the sum of mle[2i] * eq[2i], eval_at_inf the sum of
(mle[2i] + mle[2i+1]) * (eq[2i] + eq[2i+1]) and eval_at_1 = S - eval_at_0;
evaluation is Horner over the reversed coefficient list, computing
c0 + c1 * r + c2 * r^2; and consequently evaluate(0) + evaluate(1) = S. -/
theorem sum_check_round_oracle {F : Type} [CommRing F] [CharP F 2] (m e : List F) (S : F) :
    sum_check_round m e S =
      [∑ i ∈ Finset.range (m.length / 2), m.getD (2 * i) 0 * e.getD (2 * i) 0,
       (∑ i ∈ Finset.range (m.length / 2), m.getD (2 * i) 0 * e.getD (2 * i) 0) +
         (S - ∑ i ∈ Finset.range (m.length / 2), m.getD (2 * i) 0 * e.getD (2 * i) 0) +
         ∑ i ∈ Finset.range (m.length / 2),
           (m.getD (2 * i) 0 + m.getD (2 * i + 1) 0) * (e.getD (2 * i) 0 + e.getD (2 * i + 1) 0),
       ∑ i ∈ Finset.range (m.length / 2),
         (m.getD (2 * i) 0 + m.getD (2 * i + 1) 0) * (e.getD (2 * i) 0 + e.getD (2 * i + 1) 0)] ∧
    (∀ r c0 c1 c2 : F, univariate_evaluate [c0, c1, c2] r = c0 + c1 * r + c2 * r ^ 2) ∧
    univariate_evaluate (sum_check_round m e S) 0 + univariate_evaluate (sum_check_round m e S) 1
      = S := by
  refine ⟨rfl, fun r c0 c1 c2 => univariate_evaluate_three r c0 c1 c2, ?_⟩
  have h2 : (2 : F) = 0 := by
    exact_mod_cast CharP.cast_eq_zero F 2
  rw [show sum_check_round m e S =
      [sc_eval_at_0 m e, sc_eval_at_0 m e + (S - sc_eval_at_0 m e) + sc_eval_at_inf m e,
       sc_eval_at_inf m e] from rfl]
  rw [univariate_evaluate_three, univariate_evaluate_three]
  linear_combination (sc_eval_at_0 m e + sc_eval_at_inf m e) * h2

theorem sum_check_round_oracle_witness :
    univariate_evaluate (sum_check_round [(1 : ZMod 2), 0, 1, 1] [1, 1, 0, 1] 1) 0 +
      univariate_evaluate (sum_check_round [(1 : ZMod 2), 0, 1, 1] [1, 1, 0, 1] 1) 1 = 1 :=
  (sum_check_round_oracle [(1 : ZMod 2), 0, 1, 1] [1, 1, 0, 1] 1).2.2

/-! ## FRI code folding (utils/code.rs) -/

/-- fold (utils/code.rs): one butterfly-and-unskew folding step.  The NTT's
get_subspace_eval is the external capability tw. -/
def fold {F : Type} [CommRing F] (r : F) (round idx : Nat) (val0 val1 : F)
    (tw : Nat → Nat → F) : F :=
  let twiddle := tw round idx
  let x1 := val1 + val0
  let x0 := val0 + x1 * twiddle
  x0 + r * (x0 + x1)

/-- Recursion underlying fold_code: the enumerated pass over adjacent pairs. -/
def fold_code_aux {F : Type} [CommRing F] (r : F) (round : Nat) (tw : Nat → Nat → F) :
    Nat → List F → List F
  | i, v0 :: v1 :: rest => fold r round i v0 v1 tw :: fold_code_aux r round tw (i + 1) rest
  | _, _ => []

/-- Code::fold_code (utils/code.rs): fold every adjacent pair of the encoding. -/
def fold_code {F : Type} [CommRing F] (enc : List F) (r : F) (round : Nat)
    (tw : Nat → Nat → F) : List F :=
  fold_code_aux r round tw 0 enc

theorem fold_code_aux_length {F : Type} [CommRing F] (r : F) (round : Nat)
    (tw : Nat → Nat → F) :
    ∀ (l : List F) (i0 : Nat), (fold_code_aux r round tw i0 l).length = l.length / 2 := by
  refine pair_induction _ (fun i0 => by simp [fold_code_aux])
    (fun a i0 => by simp [fold_code_aux]) ?_
  intro a b l ih i0
  simp only [fold_code_aux, List.length_cons, ih]
  omega

theorem fold_code_aux_getD {F : Type} [CommRing F] (r : F) (round : Nat)
    (tw : Nat → Nat → F) :
    ∀ (l : List F) (i0 i : Nat), i < l.length / 2 →
      (fold_code_aux r round tw i0 l).getD i 0 =
        fold r round (i0 + i) (l.getD (2 * i) 0) (l.getD (2 * i + 1) 0) tw := by
  refine pair_induction _ ?_ ?_ ?_
  · intro i0 i hi
    simp only [List.length_nil] at hi
    omega
  · intro a i0 i hi
    simp only [List.length_cons, List.length_nil] at hi
    omega
  · intro a b l ih i0 i hi
    cases i with
    | zero => rfl
    | succ i =>
      have hi2 : i < l.length / 2 := by
        simp only [List.length_cons] at hi
        omega
      have h1 : 2 * (i + 1) = 2 * i + 1 + 1 := by omega
      have h2 : 2 * (i + 1) + 1 = 2 * i + 1 + 1 + 1 := by omega
      have h3 : i0 + (i + 1) = (i0 + 1) + i := by omega
      simp only [fold_code_aux, List.getD_cons_succ, h1, h2, h3]
      exact ih (i0 + 1) i hi2

/-- Claim C5: folding an even-length encoding halves its length, and the i-th
output symbol is x0 + r * (x0 + x1) where, from (v0, v1) = (enc[2i], enc[2i+1]),
x1 = v1 + v0 (butterfly) and x0 = v0 + x1 * twiddle with the twiddle the
additive-NTT subspace evaluation at round round, index i. -/
theorem fold_code_halves {F : Type} [CommRing F] (tw : Nat → Nat → F) (r : F)
    (round n : Nat) (enc : List F) (h : enc.length = 2 * n) :
    (fold_code enc r round tw).length = n ∧
    ∀ i, i < n → (fold_code enc r round tw).getD i 0 =
      (enc.getD (2 * i) 0 + (enc.getD (2 * i + 1) 0 + enc.getD (2 * i) 0) * tw round i) +
        r * ((enc.getD (2 * i) 0 + (enc.getD (2 * i + 1) 0 + enc.getD (2 * i) 0) * tw round i) +
             (enc.getD (2 * i + 1) 0 + enc.getD (2 * i) 0)) := by
  constructor
  · rw [fold_code, fold_code_aux_length, h]
    omega
  · intro i hi
    have hlen : i < enc.length / 2 := by omega
    rw [fold_code, fold_code_aux_getD r round tw enc 0 i hlen]
    simp only [fold, Nat.zero_add]

theorem fold_code_halves_witness :
    ([(1 : ZMod 2), 0, 1, 1] : List (ZMod 2)).length = 2 * 2 ∧
    (fold_code [(1 : ZMod 2), 0, 1, 1] 1 0 (fun _ _ => 1)).length = 2 :=
  ⟨by decide, (fold_code_halves (fun _ _ => 1) 1 0 2 [1, 0, 1, 1] (by decide)).1⟩

/-! ## MLE fold-lo and multilinear evaluation (utils/mle.rs) -/

/-- PackedMLE::fold_lo (utils/mle.rs): one-variable fold of the coefficient
vector, pairing adjacent entries as r * (c[2i] + c[2i+1]) + c[2i]. -/
def fold_lo {F : Type} [CommRing F] (coeffs : List F) (r : F) : List F :=
  pairMap (fun c0 c1 => r * (c0 + c1) + c0) coeffs

/-- Binding the low variable of a coefficient vector to the value p: the
canonical multilinear partial evaluation (1 - p) * c[2i] + p * c[2i+1]. -/
def bind_low {F : Type} [CommRing F] (p : F) (c : List F) : List F :=
  pairMap (fun c0 c1 => (1 - p) * c0 + p * c1) c

/-- Evaluation of a multilinear polynomial given by its evaluations on the
boolean cube in little-endian order: bind variables one at a time starting
with the low one. -/
def mle_eval {F : Type} [CommRing F] : List F → List F → F
  | c, [] => c.headD 0
  | c, p :: pt => mle_eval (bind_low p c) pt

theorem bind_low_length {F : Type} [CommRing F] (p : F) (c : List F) :
    (bind_low p c).length = c.length / 2 :=
  pairMap_length _ c

theorem bind_low_zipWith {F : Type} [CommRing F] (p : F) :
    ∀ (a b : List F), a.length = b.length →
      bind_low p (List.zipWith (fun u v => u + v) a b) =
        List.zipWith (fun u v => u + v) (bind_low p a) (bind_low p b) := by
  refine pair_induction _ ?_ ?_ ?_
  · intro b hb
    cases b with
    | nil => rfl
    | cons x t => simp at hb
  · intro a b hb
    cases b with
    | nil => simp at hb
    | cons b0 t =>
      cases t with
      | nil => rfl
      | cons b1 t2 => simp at hb
  · intro a0 a1 l ih b hb
    cases b with
    | nil => simp at hb
    | cons b0 t =>
      cases t with
      | nil => simp at hb
      | cons b1 t2 =>
        have hl : l.length = t2.length := by
          simp only [List.length_cons] at hb
          omega
        simp only [List.zipWith_cons_cons, bind_low, pairMap]
        rw [show pairMap (fun c0 c1 => (1 - p) * c0 + p * c1)
              (List.zipWith (fun u v => u + v) l t2) =
            bind_low p (List.zipWith (fun u v => u + v) l t2) from rfl,
          ih t2 hl]
        refine congrArg₂ _ (by ring) rfl

theorem bind_low_smul {F : Type} [CommRing F] (p s : F) :
    ∀ a : List F, bind_low p (a.map (fun u => s * u)) = (bind_low p a).map (fun u => s * u) := by
  refine pair_induction _ rfl (fun a => rfl) ?_
  intro a0 a1 l ih
  simp only [List.map_cons, bind_low, pairMap] at ih ⊢
  rw [ih]
  refine congrArg₂ _ (by ring) rfl

theorem mle_eval_add {F : Type} [CommRing F] :
    ∀ (pt a b : List F), a.length = b.length →
      mle_eval (List.zipWith (fun u v => u + v) a b) pt = mle_eval a pt + mle_eval b pt := by
  intro pt
  induction pt with
  | nil =>
    intro a b hb
    cases a with
    | nil =>
      cases b with
      | nil => simp [mle_eval]
      | cons b0 t => simp at hb
    | cons a0 t =>
      cases b with
      | nil => simp at hb
      | cons b0 t2 => simp [mle_eval]
  | cons p pt ih =>
    intro a b hb
    simp only [mle_eval]
    rw [bind_low_zipWith p a b hb]
    exact ih _ _ (by rw [bind_low_length, bind_low_length, hb])

theorem mle_eval_smul {F : Type} [CommRing F] (s : F) :
    ∀ (pt a : List F), mle_eval (a.map (fun u => s * u)) pt = s * mle_eval a pt := by
  intro pt
  induction pt with
  | nil =>
    intro a
    cases a with
    | nil => simp [mle_eval]
    | cons a0 t => simp [mle_eval]
  | cons p pt ih =>
    intro a
    simp only [mle_eval]
    rw [bind_low_smul p s a]
    exact ih _

theorem bind_low_decompose {F : Type} [CommRing F] (r : F) :
    ∀ c : List F,
      bind_low r c =
        List.zipWith (fun u v => u + v)
          ((bind_low 0 c).map (fun u => (1 - r) * u))
          ((bind_low 1 c).map (fun u => r * u)) := by
  refine pair_induction _ rfl (fun a => rfl) ?_
  intro c0 c1 l ih
  simp only [bind_low, pairMap, List.map_cons, List.zipWith_cons_cons] at ih ⊢
  rw [ih]
  refine congrArg₂ _ (by ring) rfl

theorem fold_lo_eq_bind_low {F : Type} [CommRing F] [CharP F 2] (r : F) :
    ∀ c : List F, fold_lo c r = bind_low r c := by
  have h2 : (2 : F) = 0 := by
    exact_mod_cast CharP.cast_eq_zero F 2
  refine pair_induction _ rfl (fun a => rfl) ?_
  intro c0 c1 l ih
  simp only [fold_lo, bind_low, pairMap] at ih ⊢
  rw [ih]
  refine congrArg₂ _ ?_ rfl
  linear_combination (r * c0) * h2

theorem mle_eval_bind {F : Type} [CommRing F] (r : F) (c : List F) (x : List F) :
    mle_eval (bind_low r c) x =
      (1 - r) * mle_eval c (0 :: x) + r * mle_eval c (1 :: x) := by
  have hlen : ((bind_low 0 c).map (fun u => (1 - r) * u)).length =
      ((bind_low 1 c).map (fun u => r * u)).length := by
    simp [bind_low_length]
  rw [bind_low_decompose r c, mle_eval_add _ _ _ hlen, mle_eval_smul, mle_eval_smul]
  rfl

/-- Claim C7: fold_lo of an MLE with 2^v coefficients (v at least 1) has
2^(v-1) coefficients; the i-th one is c[2i] + r * (c[2i] + c[2i+1]), which in
characteristic 2 equals (1 - r) * c[2i] + r * c[2i+1]; and on every point of
the remaining subcube the folded MLE evaluates to
(1 - r) * f(0, x) + r * f(1, x). -/
theorem fold_lo_spec {F : Type} [CommRing F] [CharP F 2] (v : Nat) (hv : 1 ≤ v)
    (c : List F) (hc : c.length = 2 ^ v) (r : F) :
    (fold_lo c r).length = 2 ^ (v - 1) ∧
    (∀ i, i < 2 ^ (v - 1) →
      (fold_lo c r).getD i 0 = c.getD (2 * i) 0 + r * (c.getD (2 * i) 0 + c.getD (2 * i + 1) 0) ∧
      (fold_lo c r).getD i 0 = (1 - r) * c.getD (2 * i) 0 + r * c.getD (2 * i + 1) 0) ∧
    ∀ x : List F, mle_eval (fold_lo c r) x =
      (1 - r) * mle_eval c (0 :: x) + r * mle_eval c (1 :: x) := by
  have h2 : (2 : F) = 0 := by
    exact_mod_cast CharP.cast_eq_zero F 2
  have hhalf : c.length / 2 = 2 ^ (v - 1) := by
    rcases Nat.exists_eq_add_of_le hv with ⟨k, hk⟩
    subst hk
    have h1 : 1 + k - 1 = k := by omega
    rw [hc, h1, pow_add, pow_one]
    omega
  refine ⟨?_, ?_, ?_⟩
  · rw [fold_lo, pairMap_length, hhalf]
  · intro i hi
    have hi2 : i < c.length / 2 := by omega
    have hstep := pairMap_getD (fun c0 c1 => r * (c0 + c1) + c0) (0 : F) (0 : F) c i hi2
    rw [fold_lo, hstep]
    constructor
    · ring
    · linear_combination (r * c.getD (2 * i) 0) * h2
  · intro x
    rw [fold_lo_eq_bind_low r c]
    exact mle_eval_bind r c x

theorem fold_lo_spec_witness :
    1 ≤ 2 ∧ ([(1 : ZMod 2), 0, 1, 1] : List (ZMod 2)).length = 2 ^ 2 ∧
    (fold_lo [(1 : ZMod 2), 0, 1, 1] 1).length = 2 ^ 1 :=
  ⟨by decide, by decide, (fold_lo_spec 2 (by decide) [1, 0, 1, 1] (by decide) 1).1⟩

/-! ## Equality (Lagrange) tables (utils/mle.rs, verifier.rs) -/

/-- One doubling step of the table construction in compute_eq (utils/mle.rs):
the filled prefix [x0, ..., x_{s-1}] becomes
[x0 * (1 - r), ..., x_{s-1} * (1 - r), x0 * r, ..., x_{s-1} * r], with the
lower half stored as x - x * r exactly as the source computes it. -/
def eq_step {F : Type} [CommRing F] (bases : List F) (r : F) : List F :=
  bases.map (fun x => x - x * r) ++ bases.map (fun x => x * r)

/-- compute_eq (utils/mle.rs): the doubling recurrence over the point,
starting from the singleton table [1]. -/
def compute_eq {F : Type} [CommRing F] (r : List F) : List F :=
  r.foldl eq_step [1]

/-- LagrangeBases::gen_from_point (utils/mle.rs): vals = compute_eq(point). -/
def gen_from_point {F : Type} [CommRing F] (point : List F) : List F :=
  compute_eq point

/-- compute_eq_table (verifier.rs): the verifier's own doubling recurrence,
seeded with [1 - r[0], r[0]].  The source panics on an empty point
(it indexes r[0]); the embedding returns [] there. -/
def compute_eq_table {F : Type} [CommRing F] : List F → List F
  | [] => []
  | r0 :: rest => rest.foldl eq_step [1 - r0, r0]

theorem foldl_eq_step_length {F : Type} [CommRing F] :
    ∀ (rs : List F) (acc : List F),
      (List.foldl eq_step acc rs).length = acc.length * 2 ^ rs.length := by
  intro rs
  induction rs with
  | nil => simp
  | cons r0 rest ih =>
    intro acc
    rw [List.foldl_cons, ih]
    simp only [eq_step, List.length_append, List.length_map, List.length_cons]
    ring

theorem getD_map_of_lt {A B : Type} (f : A → B) (l : List A) (j : Nat)
    (hj : j < l.length) (da : A) (db : B) : (l.map f).getD j db = f (l.getD j da) := by
  rw [List.getD_eq_getElem (l.map f) db (by simpa using hj), List.getElem_map,
    List.getD_eq_getElem l da hj]

theorem foldl_eq_step_getD {F : Type} [CommRing F] :
    ∀ (rs : List F) (acc : List F) (j b : Nat), j < acc.length → b < 2 ^ rs.length →
      (List.foldl eq_step acc rs).getD (j + acc.length * b) 0 =
        acc.getD j 0 *
          ∏ i ∈ Finset.range rs.length,
            (if (b >>> i) % 2 = 1 then rs.getD i 0 else 1 - rs.getD i 0) := by
  intro rs
  induction rs with
  | nil =>
    intro acc j b hj hb
    simp only [List.length_nil, pow_zero, Nat.lt_one_iff] at hb
    subst hb
    simp
  | cons r0 rest ih =>
    intro acc j b hj hb
    rw [List.foldl_cons]
    have hmod_le : acc.length * (b % 2) ≤ acc.length := by
      have hm : b % 2 ≤ 1 := by omega
      calc acc.length * (b % 2) ≤ acc.length * 1 := Nat.mul_le_mul_left _ hm
        _ = acc.length := Nat.mul_one _
    have hidx : j + acc.length * b =
        (j + acc.length * (b % 2)) + (eq_step acc r0).length * (b / 2) := by
      have hsplit : acc.length * b =
          acc.length * (b % 2) + (acc.length + acc.length) * (b / 2) := by
        conv_lhs => rw [← Nat.mod_add_div b 2]
        ring
      simp only [eq_step, List.length_append, List.length_map]
      omega
    have hj2 : j + acc.length * (b % 2) < (eq_step acc r0).length := by
      simp only [eq_step, List.length_append, List.length_map]
      omega
    have hb2 : b / 2 < 2 ^ rest.length := by
      rw [List.length_cons, pow_succ] at hb
      omega
    rw [hidx, ih (eq_step acc r0) _ _ hj2 hb2]
    have hhead : (eq_step acc r0).getD (j + acc.length * (b % 2)) 0 =
        acc.getD j 0 * (if b % 2 = 1 then r0 else 1 - r0) := by
      rcases Nat.mod_two_eq_zero_or_one b with hpar | hpar
      · rw [hpar, if_neg (by omega : ¬(0 : Nat) = 1)]
        simp only [Nat.mul_zero, Nat.add_zero, eq_step]
        rw [List.getD_append _ _ _ _ (by simpa using hj)]
        rw [getD_map_of_lt _ _ _ hj 0 0]
        ring
      · rw [hpar, if_pos rfl]
        simp only [Nat.mul_one, eq_step]
        rw [List.getD_append_right _ _ _ _ (by simp)]
        have hidx2 : j + acc.length - (acc.map fun x => x - x * r0).length = j := by
          simp
        rw [hidx2, getD_map_of_lt _ _ _ hj 0 0]
    rw [hhead]
    have hprodstep :
        (∏ i ∈ Finset.range (r0 :: rest).length,
          (if (b >>> i) % 2 = 1 then (r0 :: rest).getD i 0 else 1 - (r0 :: rest).getD i 0)) =
        (if b % 2 = 1 then r0 else 1 - r0) *
          ∏ i ∈ Finset.range rest.length,
            (if ((b / 2) >>> i) % 2 = 1 then rest.getD i 0 else 1 - rest.getD i 0) := by
      rw [List.length_cons, Finset.prod_range_succ']
      have hshift : ∀ i : Nat, b >>> (i + 1) = (b / 2) >>> i := by
        intro i
        rw [Nat.add_comm i 1, Nat.shiftRight_add, Nat.shiftRight_one]
      have hbit0 : b >>> 0 = b := rfl
      simp only [hshift, hbit0, List.getD_cons_succ, List.getD_cons_zero]
      ring
    rw [hprodstep]
    ring

/-- Claim C8: gen_from_point(r) has length 2^k (k the number of coordinates)
and its entry at index b is the product over i of (r[i] if bit i of b is 1,
else 1 - r[i]), the Lagrange basis value eq(b; r) in little-endian cube
order. -/
theorem gen_from_point_spec {F : Type} [CommRing F] (r : List F) :
    (gen_from_point r).length = 2 ^ r.length ∧
    ∀ b, b < 2 ^ r.length → (gen_from_point r).getD b 0 =
      ∏ i ∈ Finset.range r.length,
        (if (b >>> i) % 2 = 1 then r.getD i 0 else 1 - r.getD i 0) := by
  constructor
  · rw [gen_from_point, compute_eq, foldl_eq_step_length]
    simp
  · intro b hb
    have key := foldl_eq_step_getD r [1] 0 b (by simp) hb
    simp only [List.length_cons, List.length_nil, Nat.zero_add, Nat.one_mul,
      List.getD_cons_zero, one_mul] at key
    rw [gen_from_point, compute_eq]
    exact key

/-- Claim C9: on every non-empty point the verifier's compute_eq_table agrees
entrywise with the prover's gen_from_point (compute_eq), so both sides derive
identical equality tables from the same point. -/
theorem compute_eq_table_agrees {F : Type} [CommRing F] (r : List F) (h : r ≠ []) :
    compute_eq_table r = gen_from_point r := by
  match r, h with
  | r0 :: rest, _ =>
    have hseed : eq_step [(1 : F)] r0 = [1 - r0, r0] := by
      simp [eq_step]
    rw [gen_from_point, compute_eq, List.foldl_cons, hseed]
    rfl

theorem compute_eq_table_agrees_witness :
    ([(1 : ZMod 2)] ≠ []) ∧
    compute_eq_table [(1 : ZMod 2)] = gen_from_point [(1 : ZMod 2)] :=
  ⟨by decide, compute_eq_table_agrees [(1 : ZMod 2)] (by decide)⟩

/-! ## Merkle trees (utils/merkle.rs)

The Keccak-256 combiner is external; it enters as the parameter hc, the
hash_concatenation of two nodes. -/

/-- VectorCommitment (utils/merkle.rs): Merkle root and tree depth. -/
structure VectorCommitment (H : Type) where
  root : H
  depth : Nat

/-- The layer list built by merklize before its final reverse: the leaves,
then tree_depth successive parent layers, each the pairwise combination of
the one below (build_parent_layer, embedded as pairMap hc). -/
def build_layers {H : Type} (hc : H → H → H) : List H → Nat → List (List H)
  | l, 0 => [l]
  | l, d + 1 => l :: build_layers hc (pairMap hc l) d

/-- merklize (utils/merkle.rs): push tree_depth parent layers above the
leaves and reverse, so index 0 holds the root layer.  tree_depth is
trailing_zeros of the leaf count, which equals log2 for the power-of-two
lengths the source asserts. -/
def merklize {H : Type} (hc : H → H → H) (leaf_hashes : List H) : List (List H) :=
  (build_layers hc leaf_hashes (Nat.log2 leaf_hashes.length)).reverse

/-- MerkleTree::get_root (utils/merkle.rs): data[0][0]. -/
def get_root {H : Type} [Inhabited H] (tree : List (List H)) : H :=
  (tree.getD 0 []).getD 0 default

/-- The loop of get_merkle_path: depth runs from leaf_depth down to 1; each
step pushes the sibling tree[depth][index xor 1] and halves the index. -/
def get_path_aux {H : Type} [Inhabited H] (tree : List (List H)) : Nat → Nat → List H
  | 0, _ => []
  | d + 1, index =>
      (tree.getD (d + 1) []).getD (index ^^^ 1) default :: get_path_aux tree d (index >>> 1)

/-- get_merkle_path (utils/merkle.rs). -/
def get_merkle_path {H : Type} [Inhabited H] (tree : List (List H)) (leaf_index : Nat) :
    List H :=
  get_path_aux tree (tree.length - 1) leaf_index

/-- The hash walk of verify_merkle_path: at step d, bit d of the leaf index
tells whether the running hash is the left child. -/
def verify_path_aux {H : Type} (hc : H → H → H) (leaf_index : Nat) : H → Nat → List H → H
  | h, _, [] => h
  | h, d, p :: rest =>
      verify_path_aux hc leaf_index
        (if (leaf_index >>> d) % 2 = 0 then hc h p else hc p h) (d + 1) rest

/-- verify_merkle_path (utils/merkle.rs): require the path length to equal
the commitment's depth, recompute the root, require it to match. -/
def verify_merkle_path {H : Type} [DecidableEq H] (hc : H → H → H)
    (commitment : VectorCommitment H) (leaf_hash : H) (leaf_index : Nat)
    (merkle_path : List H) : Except String Unit :=
  if merkle_path.length ≠ commitment.depth then
    Except.error "Merkle path length does not match claimed depth."
  else if verify_path_aux hc leaf_index leaf_hash 0 merkle_path ≠ commitment.root then
    Except.error "Path failed to verify."
  else
    Except.ok ()

theorem log2_pow (d : Nat) : Nat.log2 (2 ^ d) = d := by
  rw [Nat.log2_eq_log_two]
  exact Nat.log_pow (by norm_num) d

theorem build_layers_length {H : Type} (hc : H → H → H) :
    ∀ (d : Nat) (l : List H), (build_layers hc l d).length = d + 1 := by
  intro d
  induction d with
  | zero => intro l; rfl
  | succ d ih =>
    intro l
    simp only [build_layers, List.length_cons, ih]

theorem merklize_length {H : Type} (hc : H → H → H) (d : Nat) (leaves : List H)
    (hlen : leaves.length = 2 ^ d) : (merklize hc leaves).length = d + 1 := by
  rw [merklize, List.length_reverse, hlen, log2_pow, build_layers_length]

theorem pairMap_length_pow {H : Type} (hc : H → H → H) (d : Nat) (leaves : List H)
    (hlen : leaves.length = 2 ^ (d + 1)) : (pairMap hc leaves).length = 2 ^ d := by
  rw [pairMap_length, hlen, pow_succ]
  omega

theorem merklize_succ {H : Type} (hc : H → H → H) (d : Nat) (leaves : List H)
    (hlen : leaves.length = 2 ^ (d + 1)) :
    merklize hc leaves = merklize hc (pairMap hc leaves) ++ [leaves] := by
  have hlenP : (pairMap hc leaves).length = 2 ^ d := pairMap_length_pow hc d leaves hlen
  rw [merklize, merklize, hlen, hlenP, log2_pow, log2_pow, build_layers,
    List.reverse_cons]

theorem get_root_append {H : Type} [Inhabited H] (T : List (List H)) (x : List H)
    (h : 0 < T.length) : get_root (T ++ [x]) = get_root T := by
  rw [get_root, get_root, List.getD_append _ _ _ _ h]

theorem get_path_aux_length {H : Type} [Inhabited H] (tree : List (List H)) :
    ∀ (c j : Nat), (get_path_aux tree c j).length = c := by
  intro c
  induction c with
  | zero => intro j; rfl
  | succ c ih =>
    intro j
    simp only [get_path_aux, List.length_cons, ih]

theorem get_path_aux_append {H : Type} [Inhabited H] (T : List (List H)) (x : List H) :
    ∀ (c j : Nat), c < T.length → get_path_aux (T ++ [x]) c j = get_path_aux T c j := by
  intro c
  induction c with
  | zero => intro j hc; rfl
  | succ c ih =>
    intro j hc
    simp only [get_path_aux]
    rw [List.getD_append _ _ _ _ hc, ih (j >>> 1) (by omega)]

theorem get_merkle_path_succ {H : Type} [Inhabited H] (hc : H → H → H) (d : Nat)
    (leaves : List H) (hlen : leaves.length = 2 ^ (d + 1)) (i : Nat) :
    get_merkle_path (merklize hc leaves) i =
      leaves.getD (i ^^^ 1) default ::
        get_merkle_path (merklize hc (pairMap hc leaves)) (i >>> 1) := by
  have hlenP : (pairMap hc leaves).length = 2 ^ d := pairMap_length_pow hc d leaves hlen
  have hT : (merklize hc (pairMap hc leaves)).length = d + 1 :=
    merklize_length hc d (pairMap hc leaves) hlenP
  rw [merklize_succ hc d leaves hlen, get_merkle_path]
  have hlen2 : (merklize hc (pairMap hc leaves) ++ [leaves]).length - 1 = d + 1 := by
    simp only [List.length_append, List.length_cons, List.length_nil, hT]
    omega
  rw [hlen2]
  simp only [get_path_aux]
  rw [List.getD_append_right _ _ _ _ (by omega), hT]
  simp only [Nat.sub_self, List.getD_cons_zero]
  rw [get_path_aux_append _ _ _ _ (by omega), get_merkle_path, hT]
  simp

theorem verify_path_aux_shift {H : Type} (hc : H → H → H) (i : Nat) :
    ∀ (path : List H) (h : H) (d : Nat),
      verify_path_aux hc i h (d + 1) path = verify_path_aux hc (i >>> 1) h d path := by
  intro path
  induction path with
  | nil => intro h d; rfl
  | cons p rest ih =>
    intro h d
    simp only [verify_path_aux]
    rw [show i >>> (d + 1) = (i >>> 1) >>> d from by
      rw [Nat.add_comm d 1, Nat.shiftRight_add], ih]

theorem xor_one_of_even (i : Nat) (h : i % 2 = 0) : i ^^^ 1 = i + 1 := by
  have hdiv : (i ^^^ 1) / 2 = i / 2 := by
    rw [Nat.xor_div_two]
    norm_num
  have hmod : (i ^^^ 1) % 2 = 1 := by
    rw [Nat.xor_mod_two_eq_one]
    omega
  omega

theorem xor_one_of_odd (i : Nat) (h : i % 2 = 1) : i ^^^ 1 = i - 1 := by
  have hdiv : (i ^^^ 1) / 2 = i / 2 := by
    rw [Nat.xor_div_two]
    norm_num
  have hmod : (i ^^^ 1) % 2 = 0 := by
    have := Nat.xor_mod_two_eq_one (a := i) (b := 1)
    omega
  omega

theorem merkle_root_recompute {H : Type} [Inhabited H] (hc : H → H → H) :
    ∀ (d : Nat) (leaves : List H) (i : Nat), leaves.length = 2 ^ d → i < 2 ^ d →
      verify_path_aux hc i (leaves.getD i default) 0 (get_merkle_path (merklize hc leaves) i)
        = get_root (merklize hc leaves) := by
  intro d
  induction d with
  | zero =>
    intro leaves i hlen hi
    have hi0 : i = 0 := by omega
    subst hi0
    have hlog : Nat.log2 leaves.length = 0 := by
      rw [hlen]
      simp [Nat.log2]
    rw [get_merkle_path, merklize, hlog]
    simp only [build_layers, List.reverse_cons, List.reverse_nil, List.nil_append,
      List.length_cons, List.length_nil, Nat.sub_self]
    rfl
  | succ d ih =>
    intro leaves i hlen hi
    have hlenP : (pairMap hc leaves).length = 2 ^ d := pairMap_length_pow hc d leaves hlen
    have hidiv : i >>> 1 = i / 2 := Nat.shiftRight_one i
    have hdivlt : i / 2 < 2 ^ d := by
      rw [pow_succ] at hi
      omega
    rw [get_merkle_path_succ hc d leaves hlen i]
    simp only [verify_path_aux]
    rw [verify_path_aux_shift]
    have hcomb :
        (if (i >>> 0) % 2 = 0 then hc (leaves.getD i default) (leaves.getD (i ^^^ 1) default)
         else hc (leaves.getD (i ^^^ 1) default) (leaves.getD i default)) =
          (pairMap hc leaves).getD (i >>> 1) default := by
      have hget := pairMap_getD hc default default leaves (i >>> 1)
        (by rw [hidiv, pairMap_length] at *; omega)
      rw [hget, hidiv]
      have hshr0 : i >>> 0 = i := rfl
      rcases Nat.mod_two_eq_zero_or_one i with hpar | hpar
      · rw [hshr0, if_pos hpar, xor_one_of_even i hpar]
        have h1 : 2 * (i / 2) = i := by omega
        rw [h1]
      · rw [hshr0, if_neg (by omega), xor_one_of_odd i hpar]
        have h2 : 2 * (i / 2) + 1 = i := by omega
        rw [h2]
        have h1 : 2 * (i / 2) = i - 1 := by omega
        rw [h1]
    rw [hcomb]
    rw [ih (pairMap hc leaves) (i >>> 1) hlenP (by rw [hidiv]; exact hdivlt)]
    rw [merklize_succ hc d leaves hlen,
      get_root_append _ _ (by rw [merklize_length hc d (pairMap hc leaves) hlenP]; omega)]

/-- Claim C6: Merkle round-trip.  For every power-of-two list of leaf hashes
and every in-range index i, committing to the root with depth log2 of the
leaf count, the path returned by get_merkle_path verifies against leaf i. -/
theorem merkle_round_trip {H : Type} [Inhabited H] [DecidableEq H] (hc : H → H → H)
    (d : Nat) (leaves : List H) (hlen : leaves.length = 2 ^ d) (i : Nat) (hi : i < 2 ^ d) :
    verify_merkle_path hc ⟨get_root (merklize hc leaves), d⟩ (leaves.getD i default) i
      (get_merkle_path (merklize hc leaves) i) = Except.ok () := by
  have hpath : (get_merkle_path (merklize hc leaves) i).length = d := by
    rw [get_merkle_path, get_path_aux_length, merklize_length hc d leaves hlen]
    omega
  have hroot := merkle_root_recompute hc d leaves i hlen hi
  rw [verify_merkle_path]
  simp only [hpath, hroot]
  simp

/-! ## Fiat-Shamir channel (utils/channel.rs)

The Keccak-256 sponge and the canonical field serialization are external.
A channel is modelled by the byte string its sponge has absorbed plus
round_idx; finalizing a clone of the sponge is modelled by the parameter
keccak applied to the absorbed bytes, composed with the external
deserialization deser (BinaryField128b::deserialize on the digest). -/

/-- Channel (utils/channel.rs): sponge state plus squeeze counter. -/
structure Channel (F : Type) where
  state : List Nat
  round_idx : Nat
deriving DecidableEq

/-- Little-endian byte serialization of a 64-bit usize (to_le_bytes). -/
def usize_le_bytes (n : Nat) : List Nat :=
  (List.range 8).map (fun i => (n >>> (8 * i)) % 256)

/-- Channel absorption of raw bytes (Keccak256::update). -/
def observe_bytes {F : Type} (c : Channel F) (bytes : List Nat) : Channel F :=
  ⟨c.state ++ bytes, c.round_idx⟩

/-- Channel::observe_field_elem: absorb the canonical serialization of the
element, the external capability ser. -/
def observe_field_elem {F : Type} (ser : F → List Nat) (c : Channel F) (elem : F) :
    Channel F :=
  observe_bytes c (ser elem)

/-- Channel::observe_field_elems: absorb each element in order. -/
def observe_field_elems {F : Type} (ser : F → List Nat) (c : Channel F) (elems : List F) :
    Channel F :=
  elems.foldl (observe_field_elem ser) c

/-- Channel::observe_vector_commitment: absorb the root digest bytes then the
little-endian depth. -/
def observe_vector_commitment {F : Type} (c : Channel F)
    (cm : VectorCommitment (List Nat)) : Channel F :=
  observe_bytes (observe_bytes c cm.root) (usize_le_bytes cm.depth)

/-- FriCommitment (prover.rs): vector commitment plus packing factor. -/
structure FriCommitment where
  vector_commitment : VectorCommitment (List Nat)
  packing_factor : Nat

/-- Channel::observe_fri_commitment. -/
def observe_fri_commitment {F : Type} (c : Channel F) (cm : FriCommitment) : Channel F :=
  observe_bytes (observe_vector_commitment c cm.vector_commitment)
    (usize_le_bytes cm.packing_factor)

/-- Channel::get_random_point (utils/channel.rs): update the persistent
sponge with the little-endian round counter, finalize a clone of it,
deserialize the digest and increment the counter. -/
def get_random_point {F : Type} (keccak : List Nat → List Nat) (deser : List Nat → F)
    (c : Channel F) : F × Channel F :=
  let st := c.state ++ usize_le_bytes c.round_idx
  (deser (keccak st), ⟨st, c.round_idx + 1⟩)

/-- Channel::get_random_points: n successive squeezes. -/
def get_random_points {F : Type} (keccak : List Nat → List Nat) (deser : List Nat → F) :
    Nat → Channel F → List F × Channel F
  | 0, c => ([], c)
  | n + 1, c =>
      let pc := get_random_point keccak deser c
      let rest := get_random_points keccak deser n pc.2
      (pc.1 :: rest.1, rest.2)

/-- Channel::gen_queries (utils/channel.rs): if 1 << log_max_len is below the
144-query budget return (0..log_max_len).collect() without touching the
channel, otherwise squeeze 144 field elements and mask each val() (the
external u128 view) down to log_max_len bits. -/
def gen_queries {F : Type} (keccak : List Nat → List Nat) (deser : List Nat → F)
    (val : F → Nat) (log_max_len : Nat) (c : Channel F) : List Nat × Channel F :=
  if (1 <<< log_max_len) < 144 then
    (List.range log_max_len, c)
  else
    let rc := get_random_points keccak deser 144 c
    (rc.1.map (fun elem => val elem &&& ((1 <<< log_max_len) - 1)), rc.2)

/-- Claim C2 (refuted by the code): at log_max_len = 7 the domain has
2^7 = 128 < 144 indices, and gen_queries consumes no randomness but returns
(0..log_max_len).collect() = [0, ..., 6] — only 7 indices — instead of the
exhaustive domain 0..128 the specification prescribes. -/
theorem gen_queries_small_domain_bug :
    (gen_queries (F := Nat) id (fun _ => 0) id 7 ⟨[], 0⟩).1 = List.range 7 ∧
    (gen_queries (F := Nat) id (fun _ => 0) id 7 ⟨[], 0⟩).2 = ⟨[], 0⟩ ∧
    List.range 7 ≠ List.range 128 := by
  refine ⟨by decide, by decide, by decide⟩

/-- Claim C3 (as stated, refuted): the squeeze does modify the persistent
sponge state (the counter bytes are absorbed into it before the clone is
finalized), and a second consecutive call therefore does not return the
digest of S with only LE_usize(n+1) appended. -/
theorem get_random_point_counterexample :
    ((get_random_point (F := List Nat) id id ⟨[1, 2, 3], 0⟩).2.state ≠ [1, 2, 3]) ∧
    (get_random_point (F := List Nat) id id
        ((get_random_point (F := List Nat) id id ⟨[1, 2, 3], 0⟩).2)).1 ≠
      ([1, 2, 3] ++ usize_le_bytes 1) := by
  refine ⟨by decide, by decide⟩

/-- Claim C3 (amended): get_random_point returns the deserialized digest of
the sponge state extended with LE_usize(round_idx); that absorption persists
in the sponge and round_idx is incremented, so a second consecutive call
returns the deserialized digest of S followed by LE_usize(n) and then
LE_usize(n+1). -/
theorem get_random_point_spec {F : Type} (keccak : List Nat → List Nat)
    (deser : List Nat → F) (c : Channel F) :
    get_random_point keccak deser c =
      (deser (keccak (c.state ++ usize_le_bytes c.round_idx)),
       ⟨c.state ++ usize_le_bytes c.round_idx, c.round_idx + 1⟩) ∧
    (get_random_point keccak deser (get_random_point keccak deser c).2).1 =
      deser (keccak ((c.state ++ usize_le_bytes c.round_idx) ++
        usize_le_bytes (c.round_idx + 1))) :=
  ⟨rfl, rfl⟩

theorem merkle_round_trip_witness :
    ([5, 9] : List Nat).length = 2 ^ 1 ∧ 1 < 2 ^ 1 ∧
    verify_merkle_path (fun a b => a + 2 * b + 1)
      ⟨get_root (merklize (fun a b => a + 2 * b + 1) [5, 9]), 1⟩
      (([5, 9] : List Nat).getD 1 default) 1
      (get_merkle_path (merklize (fun a b => a + 2 * b + 1) [5, 9]) 1) = Except.ok () :=
  ⟨rfl, by decide, merkle_round_trip (fun a b => a + 2 * b + 1) 1 [5, 9] rfl 1 (by decide)⟩

/-! ## The verifier (verifier.rs)

External capabilities entering as parameters: keccak (the Keccak-256 digest
of a byte string), deser (field deserialization of a digest), ser (the
canonical serialization the transcript absorbs), ser128 (val().to_le_bytes
used for leaf hashing), bitOf and from_bases (the F1 bit decomposition and
recomposition of tower-field elements), val (the u128 view of an element)
and tw (the NTT subspace evaluations). -/

/-- hash_tuple (utils/merkle.rs): Keccak over the concatenated little-endian
serializations of a pair of symbols. -/
def hash_tuple {F : Type} (keccak : List Nat → List Nat) (ser128 : F → List Nat)
    (a b : F) : List Nat :=
  keccak (ser128 a ++ ser128 b)

/-- switch_view (utils/mle.rs): transpose the 128 x 128 matrix of F1
coefficients of a column view. -/
def switch_view {F : Type} [CommRing F] (bitOf : F → Nat → F) (from_bases : List F → F)
    (vals : List F) : List F :=
  (List.range 128).map (fun i =>
    from_bases ((List.range 128).map (fun j => bitOf (vals.getD j 0) i)))

/-- compute_row_batch (utils/mle.rs): dot product of the row view with the
scalars. -/
def compute_row_batch {F : Type} [CommRing F] (bitOf : F → Nat → F)
    (from_bases : List F → F) (scalars vals : List F) : F :=
  (List.zipWith (fun v s => s * v) (switch_view bitOf from_bases vals) scalars).sum

/-- EvalProof (prover.rs). -/
structure EvalProof (F : Type) where
  upper_partial_evals : List F
  sum_check_oracles : List (List F)
  final_folded_value : F
  fri_oracles : List (VectorCommitment (List Nat))
  fri_queried_symbols : List (List (F × F))
  fri_merkle_paths : List (List (List (List Nat)))

/-- The verifier's sum-check loop (verifier.rs): check the consistency
relation of each round's oracle (an assert, modelled as none on failure),
absorb the oracle, squeeze the challenge, absorb the FRI oracle commitment,
and update the running claim. -/
def verify_sc_loop {F : Type} [CommRing F] [DecidableEq F]
    (keccak : List Nat → List Nat) (deser : List Nat → F) (ser : F → List Nat)
    (oracles : List (List F)) (fri_cms : List (VectorCommitment (List Nat))) :
    Nat → Nat → F → Channel F → List F → Option (F × Channel F × List F)
  | 0, _, claim, c, rs => some (claim, c, rs)
  | n + 1, round, claim, c, rs =>
      let oracle := oracles.getD round []
      if univariate_evaluate oracle 0 + univariate_evaluate oracle 1 ≠ claim then none
      else
        let c2 := observe_field_elems ser c oracle
        let pc := get_random_point keccak deser c2
        let c3 := observe_vector_commitment pc.2 (fri_cms.getD round ⟨[], 0⟩)
        verify_sc_loop keccak deser ser oracles fri_cms n (round + 1)
          (univariate_evaluate oracle pc.1) c3 (rs ++ [pc.1])

/-- Round 0 of the verifier's query loop: hash each pair of queried symbols,
call verify_merkle_path against the base commitment — the source discards
its Result, embedded here as a discarded let — and fold the opened pair.
The query indices are not shifted in this round. -/
def verify_query_round_zero {F : Type} [CommRing F] [DecidableEq F]
    (keccak : List Nat → List Nat) (ser128 : F → List Nat) (tw : Nat → Nat → F)
    (vc : VectorCommitment (List Nat)) (r : F) (syms : List (F × F))
    (paths : List (List (List Nat))) (queries : List Nat) : List F :=
  (List.range queries.length).map (fun i =>
    let queried := syms.getD i (0, 0)
    let path := paths.getD i []
    let hash := hash_tuple keccak ser128 queried.1 queried.2
    let _ := verify_merkle_path (fun a b => keccak (a ++ b)) vc hash (queries.getD i 0) path
    fold r 0 (queries.getD i 0) queried.1 queried.2 tw)

/-- A positive round of the verifier's query loop: check fold-path
consistency of every query (an assert, modelled as none on failure), then
shift each query, call verify_merkle_path against the previous FRI oracle —
its Result again discarded exactly as in the source — and fold. -/
def verify_query_round_pos {F : Type} [CommRing F] [DecidableEq F]
    (keccak : List Nat → List Nat) (ser128 : F → List Nat) (tw : Nat → Nat → F)
    (prev_cm : VectorCommitment (List Nat)) (r : F) (round : Nat) (syms : List (F × F))
    (paths : List (List (List Nat))) (queries : List Nat) (folded : List F) :
    Option (List F × List Nat) :=
  if (List.range queries.length).all (fun i =>
      let queried := syms.getD i (0, 0)
      decide (folded.getD i 0 = if queries.getD i 0 % 2 = 1 then queried.2 else queried.1))
  then
    some ((List.range queries.length).map (fun i =>
        let queried := syms.getD i (0, 0)
        let path := paths.getD i []
        let hash := hash_tuple keccak ser128 queried.1 queried.2
        let q2 := queries.getD i 0 >>> 1
        let _ := verify_merkle_path (fun a b => keccak (a ++ b)) prev_cm hash q2 path
        fold r round q2 queried.1 queried.2 tw),
      queries.map (fun q => q >>> 1))
  else none

/-- The verifier's query-phase loop over rounds (verifier.rs): round 0 uses
the base commitment with unshifted queries; each later round checks fold
consistency, shifts the queries, and uses the previous FRI oracle. -/
def verify_query_loop {F : Type} [CommRing F] [DecidableEq F]
    (keccak : List Nat → List Nat) (ser128 : F → List Nat) (tw : Nat → Nat → F)
    (vc0 : VectorCommitment (List Nat)) (syms : List (List (F × F)))
    (paths : List (List (List (List Nat)))) (fri_cms : List (VectorCommitment (List Nat)))
    (rs : List F) : Nat → Nat → List Nat → List F → Option (List F)
  | 0, _, _, folded => some folded
  | n + 1, round, queries, folded =>
      match round with
      | 0 =>
          verify_query_loop keccak ser128 tw vc0 syms paths fri_cms rs n 1 queries
            (verify_query_round_zero keccak ser128 tw vc0 (rs.getD 0 0) (syms.getD 0 [])
              (paths.getD 0 []) queries)
      | r0 + 1 =>
          match verify_query_round_pos keccak ser128 tw (fri_cms.getD r0 ⟨[], 0⟩)
              (rs.getD (r0 + 1) 0) (r0 + 1) (syms.getD (r0 + 1) [])
              (paths.getD (r0 + 1) []) queries folded with
          | none => none
          | some fq =>
              verify_query_loop keccak ser128 tw vc0 syms paths fri_cms rs n (r0 + 2)
                fq.2 fq.1

/-- verify (verifier.rs): replay the transcript, check the initial claim,
run the sum-check rounds, then the FRI query phase and the final-value
comparison.  Every source assert is a rejection (false); both
verify_merkle_path call sites discard their Result exactly as the source
does. -/
def verify {F : Type} [CommRing F] [DecidableEq F]
    (keccak : List Nat → List Nat) (deser : List Nat → F) (ser : F → List Nat)
    (ser128 : F → List Nat) (bitOf : F → Nat → F) (from_bases : List F → F)
    (val : F → Nat) (tw : Nat → Nat → F) (commitment : FriCommitment)
    (eval_point : List F) (eval : F) (proof : EvalProof F) (channel : Channel F) : Bool :=
  let c1 := observe_fri_commitment channel commitment
  let c2 := observe_field_elems ser c1 eval_point
  let c3 := observe_field_elem ser c2 eval
  let left := eval_point.take TAU
  let right := eval_point.drop TAU
  let left_eq := compute_eq_table left
  let derived_eval := ∑ i ∈ Finset.range (2 ^ TAU),
    left_eq.getD i 0 * proof.upper_partial_evals.getD i 0
  if derived_eval ≠ eval then false
  else
    let tb := get_random_points keccak deser TAU c3
    let batching_eq := compute_eq_table tb.1
    let claim0 := compute_row_batch bitOf from_bases batching_eq proof.upper_partial_evals
    let rounds := right.length
    if rounds ≠ proof.sum_check_oracles.length then false
    else
      match verify_sc_loop keccak deser ser proof.sum_check_oracles proof.fri_oracles
          rounds 0 claim0 tb.2 [] with
      | none => false
      | some scr =>
          let c4 := observe_field_elem ser scr.2.1 proof.final_folded_value
          let gq := gen_queries keccak deser val (rounds + LOG_RATE) c4
          let queries0 := gq.1.map (fun i => i >>> 1)
          match verify_query_loop keccak ser128 tw commitment.vector_commitment
              proof.fri_queried_symbols proof.fri_merkle_paths proof.fri_oracles scr.2.2
              rounds 0 queries0 [] with
          | none => false
          | some folded => folded.all (fun s => decide (s = proof.final_folded_value))

theorem verify_query_round_zero_paths {F : Type} [CommRing F] [DecidableEq F]
    (keccak : List Nat → List Nat) (ser128 : F → List Nat) (tw : Nat → Nat → F)
    (vc : VectorCommitment (List Nat)) (r : F) (syms : List (F × F))
    (paths : List (List (List Nat))) (queries : List Nat) :
    verify_query_round_zero keccak ser128 tw vc r syms paths queries =
      verify_query_round_zero keccak ser128 tw vc r syms [] queries := by
  simp only [verify_query_round_zero]

theorem verify_query_round_pos_paths {F : Type} [CommRing F] [DecidableEq F]
    (keccak : List Nat → List Nat) (ser128 : F → List Nat) (tw : Nat → Nat → F)
    (prev_cm : VectorCommitment (List Nat)) (r : F) (round : Nat) (syms : List (F × F))
    (paths : List (List (List Nat))) (queries : List Nat) (folded : List F) :
    verify_query_round_pos keccak ser128 tw prev_cm r round syms paths queries folded =
      verify_query_round_pos keccak ser128 tw prev_cm r round syms [] queries folded := by
  simp only [verify_query_round_pos]

theorem verify_query_loop_paths {F : Type} [CommRing F] [DecidableEq F]
    (keccak : List Nat → List Nat) (ser128 : F → List Nat) (tw : Nat → Nat → F)
    (vc0 : VectorCommitment (List Nat)) (syms : List (List (F × F)))
    (paths : List (List (List (List Nat)))) (fri_cms : List (VectorCommitment (List Nat)))
    (rs : List F) :
    ∀ (n round : Nat) (queries : List Nat) (folded : List F),
      verify_query_loop keccak ser128 tw vc0 syms paths fri_cms rs n round queries folded =
        verify_query_loop keccak ser128 tw vc0 syms [] fri_cms rs n round queries folded := by
  intro n
  induction n with
  | zero => intro round queries folded; rfl
  | succ n ih =>
    intro round queries folded
    cases round with
    | zero =>
      simp only [verify_query_loop]
      rw [ih, verify_query_round_zero_paths]
      rfl
    | succ r0 =>
      simp only [verify_query_loop]
      rw [verify_query_round_pos_paths]
      have hnil : ([] : List (List (List (List Nat)))).getD (r0 + 1) [] = [] := rfl
      rw [hnil]
      cases hres : verify_query_round_pos keccak ser128 tw (fri_cms.getD r0 ⟨[], 0⟩)
          (rs.getD (r0 + 1) 0) (r0 + 1) (syms.getD (r0 + 1) []) [] queries folded with
      | none => rfl
      | some fq =>
        simp only []
        exact ih (r0 + 2) fq.2 fq.1

/-- Claim C1 (refuted, code bug): the verifier's outcome does not depend on
the Merkle paths at all.  Both verify_merkle_path call sites in verify
(round 0 against the base commitment and later rounds against the previous
FRI oracle) compute a Result that the source immediately discards, so no
corruption or truncation of fri_merkle_paths can ever cause a rejection:
verify returns the same Bool for a proof with arbitrarily replaced paths. -/
theorem verify_ignores_merkle_paths {F : Type} [CommRing F] [DecidableEq F]
    (keccak : List Nat → List Nat) (deser : List Nat → F) (ser : F → List Nat)
    (ser128 : F → List Nat) (bitOf : F → Nat → F) (from_bases : List F → F)
    (val : F → Nat) (tw : Nat → Nat → F) (commitment : FriCommitment)
    (eval_point : List F) (eval : F) (proof : EvalProof F) (channel : Channel F)
    (other_paths : List (List (List (List Nat)))) :
    verify keccak deser ser ser128 bitOf from_bases val tw commitment eval_point eval
      { proof with fri_merkle_paths := other_paths } channel =
    verify keccak deser ser ser128 bitOf from_bases val tw commitment eval_point eval
      proof channel := by
  simp only [verify, verify_query_loop_paths]

/-! ## The prover's commit phase (prover.rs) -/

/-- compute_leaf_hashes (utils/merkle.rs): hash each adjacent pair of
encoding symbols through Keccak over their serializations. -/
def compute_leaf_hashes {F : Type} (keccak : List Nat → List Nat) (ser128 : F → List Nat)
    (vals : List F) : List (List Nat) :=
  pairMap (fun a b => keccak (ser128 a ++ ser128 b)) vals

/-- commit_oracle (prover.rs): hash the code into leaves, merklize, and form
the vector commitment whose depth is trailing_zeros of the encoding length
minus 1 (equal to log2 minus 1 for the power-of-two encodings the source
asserts). -/
def commit_oracle {F : Type} (keccak : List Nat → List Nat) (ser128 : F → List Nat)
    (code : List F) : VectorCommitment (List Nat) × List (List (List Nat)) :=
  let leaf_hashes := compute_leaf_hashes keccak ser128 code
  let tree := merklize (fun a b => keccak (a ++ b)) leaf_hashes
  (⟨get_root tree, Nat.log2 code.length - 1⟩, tree)

/-- ProofState (prover.rs). -/
structure ProofState (F : Type) where
  fri_folded_codes : List (List F)
  fri_oracles : List (VectorCommitment (List Nat))
  fri_merkle_trees : List (List (List (List Nat)))
  sum_check_oracles : List (List F)
  random_challenges : List F

/-- Wrapping 64-bit usize subtraction: rounds - 1 underflows to 2^64 - 1 when
rounds = 0, as the source's usize arithmetic does. -/
def usize_sub (a b : Nat) : Nat :=
  if b ≤ a then a - b else a + 2 ^ 64 - b

/-- The loop of commit_phase (prover.rs): each round emits the sum-check
oracle, absorbs it, squeezes the challenge, folds the code — round 0 folds
the base encoding, later rounds index fri_folded_codes[round - 1], an access
modelled with getElem? so an out-of-bounds read is none — commits the folded
code, absorbs the commitment, records everything in the proof state and
folds the multilinear and the equality table. -/
def commit_phase_loop {F : Type} [CommRing F] (keccak : List Nat → List Nat)
    (deser : List Nat → F) (ser : F → List Nat) (ser128 : F → List Nat)
    (tw : Nat → Nat → F) (encoding : List F) :
    Nat → Nat → ProofState F → List F → List F → F → Channel F →
      Option (ProofState F × F × Channel F)
  | 0, _, st, _, _, claim, c => some (st, claim, c)
  | n + 1, round, st, mle, eq, claim, c =>
      let poly := sum_check_round mle eq claim
      let c2 := observe_field_elems ser c poly
      let pc := get_random_point keccak deser c2
      let claim2 := univariate_evaluate poly pc.1
      let prev : Option (List F) :=
        match round with
        | 0 => some encoding
        | r0 + 1 => st.fri_folded_codes[r0]?
      match prev with
      | none => none
      | some prev_code =>
          let folded := fold_code prev_code pc.1 round tw
          let cm_tree := commit_oracle keccak ser128 folded
          let c3 := observe_vector_commitment pc.2 cm_tree.1
          commit_phase_loop keccak deser ser ser128 tw encoding n (round + 1)
            ⟨st.fri_folded_codes ++ [folded], st.fri_oracles ++ [cm_tree.1],
             st.fri_merkle_trees ++ [cm_tree.2], st.sum_check_oracles ++ [poly],
             st.random_challenges ++ [pc.1]⟩
            (fold_lo mle pc.1) (fold_lo eq pc.1) claim2 c3

/-- commit_phase (prover.rs): run the loop for rounds rounds starting from
the empty proof state, then read fri_folded_codes[rounds - 1] — with the
usize subtraction wrapping on rounds = 0 — and return its first symbol
(the final folded value; the symbol read itself is modelled totally, the
claim under scrutiny concerns only the fri_folded_codes indexing). -/
def commit_phase {F : Type} [CommRing F] (keccak : List Nat → List Nat)
    (deser : List Nat → F) (ser : F → List Nat) (ser128 : F → List Nat)
    (tw : Nat → Nat → F) (rounds : Nat) (encoding : List F) (mle eq : List F)
    (claim : F) (c : Channel F) : Option F :=
  match commit_phase_loop keccak deser ser ser128 tw encoding rounds 0
      ⟨[], [], [], [], []⟩ mle eq claim c with
  | none => none
  | some res =>
      match res.1.fri_folded_codes[usize_sub rounds 1]? with
      | none => none
      | some last_code => some (last_code.getD 0 0)

theorem commit_phase_loop_total {F : Type} [CommRing F] (keccak : List Nat → List Nat)
    (deser : List Nat → F) (ser : F → List Nat) (ser128 : F → List Nat)
    (tw : Nat → Nat → F) (encoding : List F) :
    ∀ (n round : Nat) (st : ProofState F) (mle eq : List F) (claim : F) (c : Channel F),
      st.fri_folded_codes.length = round →
      ∃ res, commit_phase_loop keccak deser ser ser128 tw encoding n round st mle eq claim c
          = some res ∧ res.1.fri_folded_codes.length = round + n := by
  intro n
  induction n with
  | zero =>
    intro round st mle eq claim c hlen
    exact ⟨(st, claim, c), rfl, by simpa using hlen⟩
  | succ n ih =>
    intro round st mle eq claim c hlen
    cases round with
    | zero =>
      simp only [commit_phase_loop]
      obtain ⟨res, hres, hreslen⟩ := ih 1
        ⟨st.fri_folded_codes ++ [fold_code encoding
            (get_random_point keccak deser
              (observe_field_elems ser c (sum_check_round mle eq claim))).1 0 tw],
         _, _, _, _⟩ _ _ _ _ (by simp [hlen])
      rw [hres]
      exact ⟨res, rfl, by omega⟩
    | succ r0 =>
      simp only [commit_phase_loop]
      have hget : st.fri_folded_codes[r0]? = some (st.fri_folded_codes.getD r0 []) := by
        rw [List.getElem?_eq_getElem (by omega), List.getD_eq_getElem _ _ (by omega)]
      rw [hget]
      simp only []
      obtain ⟨res, hres, hreslen⟩ := ih (r0 + 2)
        ⟨st.fri_folded_codes ++ [fold_code (st.fri_folded_codes.getD r0 [])
            (get_random_point keccak deser
              (observe_field_elems ser c (sum_check_round mle eq claim))).1 (r0 + 1) tw],
         _, _, _, _⟩ _ _ _ _ (by simp [hlen])
      rw [hres]
      exact ⟨res, rfl, by omega⟩

/-- Claim C10: commit_phase succeeds exactly when there is at least one
round, i.e. when the evaluation point has strictly more than TAU = 7
coordinates (rounds = eval_point.len() - TAU = (eval_point.drop TAU).length).
With rounds = 0 the final read fri_folded_codes[rounds - 1] underflows and
is out of bounds on the empty folded-code list; with rounds >= 1 that read
and every per-round read fri_folded_codes[round - 1] are in bounds, so the
loop and the final access all succeed. -/
theorem commit_phase_in_bounds {F : Type} [CommRing F] (keccak : List Nat → List Nat)
    (deser : List Nat → F) (ser : F → List Nat) (ser128 : F → List Nat)
    (tw : Nat → Nat → F) (encoding : List F) (eval_point : List F) (mle eq : List F)
    (claim : F) (c : Channel F) :
    (commit_phase keccak deser ser ser128 tw (eval_point.drop TAU).length encoding
        mle eq claim c).isSome ↔ 8 ≤ eval_point.length := by
  rw [List.length_drop]
  obtain ⟨res, hres, hreslen⟩ := commit_phase_loop_total keccak deser ser ser128 tw
    encoding (eval_point.length - TAU) 0 ⟨[], [], [], [], []⟩ mle eq claim c rfl
  rw [commit_phase, hres]
  cases hrounds : eval_point.length - TAU with
  | zero =>
    have h8 : ¬ 8 ≤ eval_point.length := by
      simp only [TAU] at hrounds
      omega
    have hempty : res.1.fri_folded_codes[usize_sub 0 1]? = none := by
      apply List.getElem?_eq_none
      simp only [usize_sub]
      omega
    simp [hempty, h8]
  | succ k =>
    have h8 : 8 ≤ eval_point.length := by
      simp only [TAU] at hrounds
      omega
    have hsub : usize_sub (k + 1) 1 = k := by
      simp [usize_sub]
    have hk : k < res.1.fri_folded_codes.length := by omega
    have hsome : ∃ x, res.1.fri_folded_codes[usize_sub (k + 1) 1]? = some x := by
      rw [hsub]
      exact ⟨_, List.getElem?_eq_getElem hk⟩
    obtain ⟨x, hx⟩ := hsome
    simp [hx, h8]

end FriBinius
